import Mathlib

/-!
Shallow embedding of the `BigInt` arbitrary-precision integer from
`src/assignments/assignment09/bigint.rs`, together with proofs of the
specification's claims about it.

A `BigInt` carrier is modelled as a `List Nat`, most-significant word first,
with the well-formedness predicate `wf` recording that every word fits in
32 bits (the `u32` invariant of the Rust `Vec<u32>`).
-/

set_option maxHeartbeats 1000000

namespace BigIntSpec

/-- Word modulus of the `u32` carrier words. -/
def W32 : Nat := 2 ^ 32

/-- Largest `u32` value, `u32::MAX`. -/
def UMAX : Nat := 2 ^ 32 - 1

/-- Sign mask `1 << 31` from the source. -/
def SIGN_MASK : Nat := 1 <<< 31

/-- Sign-bit test `w & SIGN_MASK != 0` on a carrier word. -/
def signBitWord (w : Nat) : Bool := w &&& SIGN_MASK != 0

/-- Well-formed carrier: every word fits in 32 bits. -/
def wf (c : List Nat) : Prop := ∀ w ∈ c, w < W32

instance (c : List Nat) : Decidable (wf c) :=
  decidable_of_iff (∀ w ∈ c, w < W32) Iff.rfl

/-- Unsigned interpretation of a carrier, most-significant word first. -/
def toNat : List Nat → Nat
  | [] => 0
  | w :: ws => w * W32 ^ ws.length + toNat ws

/-- Signed two's-complement value of a carrier: the unsigned interpretation,
minus `2^(32*len)` when the sign bit of the leading word is set. -/
def value (c : List Nat) : Int :=
  (toNat c : Int) - (if signBitWord c.headI then ((W32 ^ c.length : Nat) : Int) else 0)

/-- Constructor `BigInt::new`: a one-word carrier. -/
def new (n : Nat) : List Nat := [n]

/-- Extension of a carrier to `len` words (`BigInt::sign_extension`): copies of
the extension word (all-1s if the sign bit of the leading word is set, else 0)
are prepended until the target length is reached. -/
def sign_extension (c : List Nat) (len : Nat) : List Nat :=
  let extendWord := if signBitWord c.headI then UMAX else 0
  List.replicate (len - c.length) extendWord ++ c

/-- Carry-rippling core of `BigInt::two_complement`: every word is replaced by
its bitwise complement plus the incoming carry; the recursion reaches the
least-significant word first, where the carry starts at 1. Returns the result
words together with the carry out of the most-significant word. -/
def twoCompGo : List Nat → List Nat × Nat
  | [] => ([], 1)
  | x :: xs =>
    let p := twoCompGo xs
    let sum := (UMAX - x) + p.2
    (sum % W32 :: p.1, sum / W32)

/-- Two's complement of a carrier (`BigInt::two_complement`): the carry out of
the most-significant word is discarded, so the result has the input's length. -/
def two_complement (c : List Nat) : List Nat := (twoCompGo c).1

/-- Word-by-word addition loop of `impl Add for BigInt`: the reversed iterators
are zipped, so the words are added least-significant first with a carry, and
the loop stops at the shorter operand. Returns the words and the final carry. -/
def addGo : List Nat → List Nat → List Nat × Nat
  | x :: xs, y :: ys =>
    let p := addGo xs ys
    let sum := x + y + p.2
    (sum % W32 :: p.1, sum / W32)
  | _, _ => ([], 0)

/-- Head-stripping loop of `BigInt::truncate`: the leading word is removed
while it equals `extendWord` and the extension word implied by the second
word's sign bit also equals `extendWord`. -/
def truncGo (extendWord : Nat) : List Nat → List Nat
  | x :: y :: rest =>
    if x == extendWord then
      if (if signBitWord y then UMAX else 0) == extendWord then
        truncGo extendWord (y :: rest)
      else x :: y :: rest
    else x :: y :: rest
  | c => c

/-- Canonicalization `BigInt::truncate`: the extension word is computed once
from the sign bit of the original leading word. -/
def truncate (c : List Nat) : List Nat :=
  truncGo (if signBitWord c.headI then UMAX else 0) c

/-- Constructor `BigInt::new_large`: `none` models the panic (failed assertion)
on an empty carrier; otherwise the carrier is canonicalized by truncation. -/
def new_large (c : List Nat) : Option (List Nat) :=
  if c = [] then none else some (truncate c)

/-- Addition from `impl Add for BigInt`: both operands are sign-extended to the
longer length and added word-by-word; when both operands have the same sign
but the raw result's sign differs, one extension word is prepended; the result
is canonicalized by truncation. -/
def add (l r : List Nat) : List Nat :=
  let maxLen := max l.length r.length
  let lhs := sign_extension l maxLen
  let rhs := sign_extension r maxLen
  let lhsSign := signBitWord l.headI
  let rhsSign := signBitWord rhs.headI
  let ret := (addGo lhs rhs).1
  let firstSign := signBitWord ret.headI
  let ret2 :=
    if rhsSign == lhsSign && firstSign != rhsSign then
      if rhsSign then UMAX :: ret else 0 :: ret
    else ret
  truncate ret2

/-- Subtraction from `impl Sub for BigInt`: addition of the two's complement of
the right operand, taken at its own width. -/
def sub (l r : List Nat) : List Nat := add l (two_complement r)

/-- Lowercase hexadecimal digit for a value below 16. -/
def hexDigit (n : Nat) : Char :=
  if n < 10 then Char.ofNat (48 + n) else Char.ofNat (87 + n)

/-- Format of a word under Rust's `{:08x}`: exactly 8 lowercase hexadecimal
digits, leading zeros included. -/
def hex8 (w : Nat) : String :=
  String.mk ((List.range 8).map fun i => hexDigit (w / 16 ^ (7 - i) % 16))

/-- Rendering from `impl fmt::Display for BigInt`: each word is appended as 8
hexadecimal digits, most-significant word first, with no separators. -/
def display (c : List Nat) : String :=
  c.foldl (fun acc w => acc ++ hex8 w) ""

/-! ### Basic facts about words and the sign bit -/

theorem W32_pos : 0 < W32 := by norm_num [W32]

theorem UMAX_lt : UMAX < W32 := by norm_num [UMAX, W32]

theorem SIGN_MASK_eq : SIGN_MASK = 2 ^ 31 := by decide

theorem signBitWord_true_iff {w : Nat} (hw : w < W32) :
    signBitWord w = true ↔ 2 ^ 31 ≤ w := by
  have hand : w &&& 2 ^ 31 = (w.testBit 31).toNat * 2 ^ 31 := Nat.and_two_pow w 31
  have hub : w / 2 ^ 31 < 2 := by
    apply Nat.div_lt_of_lt_mul
    calc w < W32 := hw
    _ = 2 ^ 31 * 2 := by norm_num [W32]
  have hdiv : w / 2 ^ 31 % 2 = w / 2 ^ 31 := Nat.mod_eq_of_lt hub
  simp only [signBitWord, SIGN_MASK_eq, bne_iff_ne, ne_eq, hand,
    Nat.testBit_to_div_mod, hdiv]
  norm_num
  omega

theorem signBitWord_zero : signBitWord 0 = false := by decide

theorem signBitWord_UMAX : signBitWord UMAX = true := by decide

/-! ### The unsigned interpretation `toNat` -/

theorem toNat_lt {c : List Nat} (h : wf c) : toNat c < W32 ^ c.length := by
  induction c with
  | nil => simp [toNat]
  | cons w ws ih =>
    have hw : w < W32 := h w (by simp)
    have hws : toNat ws < W32 ^ ws.length := ih fun x hx => h x (by simp [hx])
    calc toNat (w :: ws) = w * W32 ^ ws.length + toNat ws := rfl
    _ < w * W32 ^ ws.length + W32 ^ ws.length := by omega
    _ = (w + 1) * W32 ^ ws.length := by ring
    _ ≤ W32 * W32 ^ ws.length := Nat.mul_le_mul_right _ (by omega)
    _ = W32 ^ (w :: ws).length := by rw [List.length_cons]; ring

theorem toNat_append (a b : List Nat) :
    toNat (a ++ b) = toNat a * W32 ^ b.length + toNat b := by
  induction a with
  | nil => simp [toNat]
  | cons w ws ih =>
    have h1 : (w :: ws) ++ b = w :: (ws ++ b) := rfl
    rw [h1]
    show w * W32 ^ (ws ++ b).length + toNat (ws ++ b) = _
    rw [ih, List.length_append]
    show _ = (w * W32 ^ ws.length + toNat ws) * W32 ^ b.length + toNat b
    ring

theorem toNat_replicate_zero (k : Nat) : toNat (List.replicate k 0) = 0 := by
  induction k with
  | zero => rfl
  | succ n ih => simp [List.replicate_succ, toNat, ih]

theorem toNat_replicate_UMAX (k : Nat) :
    toNat (List.replicate k UMAX) = W32 ^ k - 1 := by
  induction k with
  | zero => rfl
  | succ n ih =>
    have hpos : 0 < W32 ^ n := pow_pos W32_pos n
    show UMAX * W32 ^ (List.replicate n UMAX).length + toNat (List.replicate n UMAX) = _
    rw [List.length_replicate, ih]
    have hU : UMAX = W32 - 1 := rfl
    have hp : W32 ^ (n + 1) = W32 * W32 ^ n := by rw [pow_succ]; ring
    have hs : (W32 - 1) * W32 ^ n = W32 * W32 ^ n - W32 ^ n :=
      Nat.sub_one_mul W32 (W32 ^ n)
    have hge : W32 ^ n ≤ W32 * W32 ^ n := Nat.le_mul_of_pos_left _ W32_pos
    rw [hU, hp, hs]
    omega

/-! ### Sign characterization: the sign bit of the head versus `toNat` -/

theorem signBit_head_iff {w : Nat} {ws : List Nat} (hw : w < W32) (hws : wf ws) :
    signBitWord w = true ↔ W32 ^ (w :: ws).length ≤ 2 * toNat (w :: ws) := by
  have htail : toNat ws < W32 ^ ws.length := toNat_lt hws
  have hkey : W32 ^ (w :: ws).length = 2 * 2 ^ 31 * W32 ^ ws.length := by
    rw [List.length_cons, pow_succ, mul_comm (W32 ^ ws.length) W32]
    norm_num [W32]
  rw [signBitWord_true_iff hw, hkey]
  show 2 ^ 31 ≤ w ↔ _ ≤ 2 * (w * W32 ^ ws.length + toNat ws)
  have hpos : 0 < W32 ^ ws.length := pow_pos W32_pos _
  constructor
  · intro h
    calc 2 * 2 ^ 31 * W32 ^ ws.length ≤ 2 * w * W32 ^ ws.length := by
          apply Nat.mul_le_mul_right
          omega
    _ ≤ 2 * (w * W32 ^ ws.length + toNat ws) := by
          rw [Nat.mul_assoc]
          omega
  · intro h
    by_contra hlt
    push_neg at hlt
    have hw1 : w + 1 ≤ 2 ^ 31 := hlt
    have : 2 * (w * W32 ^ ws.length + toNat ws) < 2 * ((w + 1) * W32 ^ ws.length) := by
      have : w * W32 ^ ws.length + toNat ws < (w + 1) * W32 ^ ws.length := by
        calc w * W32 ^ ws.length + toNat ws < w * W32 ^ ws.length + W32 ^ ws.length := by omega
        _ = (w + 1) * W32 ^ ws.length := by ring
      omega
    have h2 : 2 * ((w + 1) * W32 ^ ws.length) ≤ 2 * 2 ^ 31 * W32 ^ ws.length := by
      rw [Nat.mul_assoc]
      apply Nat.mul_le_mul_left
      exact Nat.mul_le_mul_right _ hw1
    omega

theorem signBit_iff {c : List Nat} (h : wf c) (hc : c ≠ []) :
    signBitWord c.headI = true ↔ W32 ^ c.length ≤ 2 * toNat c := by
  cases c with
  | nil => exact absurd rfl hc
  | cons w ws =>
    exact signBit_head_iff (h w (by simp)) fun x hx => h x (by simp [hx])

/-- The signed value, written with the sign condition phrased over `toNat`. -/
theorem value_eq_ite {c : List Nat} (h : wf c) (hc : c ≠ []) :
    value c = (toNat c : Int) -
      (if W32 ^ c.length ≤ 2 * toNat c then ((W32 ^ c.length : Nat) : Int) else 0) := by
  unfold value
  have hiff := signBit_iff h hc
  by_cases hle : W32 ^ c.length ≤ 2 * toNat c
  · have hb := hiff.mpr hle
    simp [hb, hle]
  · have hb : signBitWord c.headI = false := by
      rcases Bool.eq_false_or_eq_true (signBitWord c.headI) with hb | hb
      · exact absurd (hiff.mp hb) hle
      · exact hb
    simp [hb, hle]

/-- Range of the signed value: `2 * value c` lies in `[-W32^len, W32^len)`. -/
theorem value_range {c : List Nat} (h : wf c) (hc : c ≠ []) :
    -((W32 ^ c.length : Nat) : Int) ≤ 2 * value c ∧
      2 * value c < ((W32 ^ c.length : Nat) : Int) := by
  have hlt : toNat c < W32 ^ c.length := toNat_lt h
  rw [value_eq_ite h hc]
  by_cases hle : W32 ^ c.length ≤ 2 * toNat c
  · rw [if_pos hle]
    omega
  · rw [if_neg hle]
    omega

/-! ### Well-formedness plumbing -/

theorem W32_eq : W32 = 4294967296 := by norm_num [W32]

theorem UMAX_add_one : UMAX + 1 = W32 := by norm_num [UMAX, W32]

theorem wf_nil : wf [] := fun w hw => absurd hw (List.not_mem_nil w)

theorem wf_cons_iff {w : Nat} {ws : List Nat} : wf (w :: ws) ↔ w < W32 ∧ wf ws := by
  constructor
  · intro h
    exact ⟨h w (by simp), fun x hx => h x (by simp [hx])⟩
  · rintro ⟨hw, hws⟩ x hx
    rcases List.mem_cons.mp hx with hx | hx
    · exact hx ▸ hw
    · exact hws x hx

theorem wf_append_iff {a b : List Nat} : wf (a ++ b) ↔ wf a ∧ wf b := by
  constructor
  · intro h
    exact ⟨fun x hx => h x (by simp [hx]), fun x hx => h x (by simp [hx])⟩
  · rintro ⟨ha, hb⟩ x hx
    rcases List.mem_append.mp hx with hx | hx
    · exact ha x hx
    · exact hb x hx

theorem wf_replicate {k e : Nat} (he : e < W32) : wf (List.replicate k e) := by
  intro w hw
  rw [List.eq_of_mem_replicate hw]
  exact he

/-! ### The addition loop `addGo` -/

theorem addGo_spec (a : List Nat) : ∀ b : List Nat, a.length = b.length → wf a → wf b →
    (addGo a b).1.length = a.length ∧ wf (addGo a b).1 ∧ (addGo a b).2 ≤ 1 ∧
      toNat (addGo a b).1 + (addGo a b).2 * W32 ^ a.length = toNat a + toNat b := by
  induction a with
  | nil =>
    intro b hlen _ _
    cases b with
    | nil => exact ⟨rfl, wf_nil, by norm_num [addGo], by simp [addGo, toNat]⟩
    | cons y ys => simp at hlen
  | cons x xs ih =>
    intro b hlen hwa hwb
    cases b with
    | nil => simp at hlen
    | cons y ys =>
      have hlen' : xs.length = ys.length := by simpa using hlen
      have hwxs : wf xs := (wf_cons_iff.mp hwa).2
      have hwys : wf ys := (wf_cons_iff.mp hwb).2
      have hx : x < W32 := (wf_cons_iff.mp hwa).1
      have hy : y < W32 := (wf_cons_iff.mp hwb).1
      obtain ⟨ih1, ih2, ih3, ih4⟩ := ih ys hlen' hwxs hwys
      have hgoal_eq : addGo (x :: xs) (y :: ys) =
          ((x + y + (addGo xs ys).2) % W32 :: (addGo xs ys).1,
            (x + y + (addGo xs ys).2) / W32) := rfl
      rw [hgoal_eq]
      have hcy : (x + y + (addGo xs ys).2) / W32 ≤ 1 := by
        have h2 : (x + y + (addGo xs ys).2) / W32 < 2 :=
          Nat.div_lt_of_lt_mul (by omega)
        omega
      refine ⟨by simp [ih1], ?_, hcy, ?_⟩
      · exact wf_cons_iff.mpr ⟨Nat.mod_lt _ W32_pos, ih2⟩
      · have ht : toNat ((x + y + (addGo xs ys).2) % W32 :: (addGo xs ys).1) =
            (x + y + (addGo xs ys).2) % W32 * W32 ^ xs.length + toNat (addGo xs ys).1 := by
          show (x + y + (addGo xs ys).2) % W32 * W32 ^ (addGo xs ys).1.length +
            toNat (addGo xs ys).1 = _
          rw [ih1]
        show toNat ((x + y + (addGo xs ys).2) % W32 :: (addGo xs ys).1) +
            (x + y + (addGo xs ys).2) / W32 * W32 ^ (x :: xs).length = _
        rw [ht, List.length_cons, pow_succ]
        show _ = (x * W32 ^ xs.length + toNat xs) + (y * W32 ^ ys.length + toNat ys)
        rw [← hlen']
        have hdm : W32 * ((x + y + (addGo xs ys).2) / W32) +
            (x + y + (addGo xs ys).2) % W32 = x + y + (addGo xs ys).2 :=
          Nat.div_add_mod _ W32
        zify at ih4 hdm ⊢
        linear_combination (W32 ^ xs.length : Int) * hdm + ih4

/-! ### The two's-complement loop `twoCompGo` -/

theorem twoCompGo_spec (c : List Nat) (h : wf c) :
    (twoCompGo c).1.length = c.length ∧ wf (twoCompGo c).1 ∧ (twoCompGo c).2 ≤ 1 ∧
      toNat (twoCompGo c).1 + (twoCompGo c).2 * W32 ^ c.length + toNat c =
        W32 ^ c.length := by
  induction c with
  | nil => exact ⟨rfl, wf_nil, le_refl 1, by simp [twoCompGo, toNat]⟩
  | cons x xs ih =>
    have hwxs : wf xs := (wf_cons_iff.mp h).2
    have hx : x < W32 := (wf_cons_iff.mp h).1
    have hxle : x ≤ UMAX := by
      have := UMAX_add_one
      omega
    obtain ⟨ih1, ih2, ih3, ih4⟩ := ih hwxs
    have hgoal_eq : twoCompGo (x :: xs) =
        ((UMAX - x + (twoCompGo xs).2) % W32 :: (twoCompGo xs).1,
          (UMAX - x + (twoCompGo xs).2) / W32) := rfl
    rw [hgoal_eq]
    have hcy : (UMAX - x + (twoCompGo xs).2) / W32 ≤ 1 := by
      have hU := UMAX_add_one
      have h2 : (UMAX - x + (twoCompGo xs).2) / W32 < 2 :=
        Nat.div_lt_of_lt_mul (by omega)
      omega
    refine ⟨by simp [ih1], ?_, hcy, ?_⟩
    · exact wf_cons_iff.mpr ⟨Nat.mod_lt _ W32_pos, ih2⟩
    · have ht : toNat ((UMAX - x + (twoCompGo xs).2) % W32 :: (twoCompGo xs).1) =
          (UMAX - x + (twoCompGo xs).2) % W32 * W32 ^ xs.length +
            toNat (twoCompGo xs).1 := by
        show (UMAX - x + (twoCompGo xs).2) % W32 * W32 ^ (twoCompGo xs).1.length +
          toNat (twoCompGo xs).1 = _
        rw [ih1]
      show toNat ((UMAX - x + (twoCompGo xs).2) % W32 :: (twoCompGo xs).1) +
          (UMAX - x + (twoCompGo xs).2) / W32 * W32 ^ (x :: xs).length +
          toNat (x :: xs) = _
      rw [ht, List.length_cons, pow_succ]
      show _ + (x * W32 ^ xs.length + toNat xs) = W32 ^ xs.length * W32
      have hdm : W32 * ((UMAX - x + (twoCompGo xs).2) / W32) +
          (UMAX - x + (twoCompGo xs).2) % W32 = UMAX - x + (twoCompGo xs).2 :=
        Nat.div_add_mod _ W32
      have hUZ := UMAX_add_one
      zify [hxle] at ih4 hdm hUZ ⊢
      linear_combination (W32 ^ xs.length : Int) * hdm + ih4 +
        (W32 ^ xs.length : Int) * hUZ

theorem two_complement_length (c : List Nat) : (two_complement c).length = c.length := by
  unfold two_complement
  induction c with
  | nil => rfl
  | cons x xs ih => simpa [twoCompGo] using ih

/-! ### Sign extension -/

theorem sign_extension_length (c : List Nat) (n : Nat) :
    (sign_extension c n).length = (n - c.length) + c.length := by
  simp [sign_extension]

theorem sign_extension_ne_nil {c : List Nat} (hc : c ≠ []) (n : Nat) :
    sign_extension c n ≠ [] := by
  unfold sign_extension
  simp [hc]

theorem sign_extension_wf {c : List Nat} (h : wf c) (n : Nat) :
    wf (sign_extension c n) := by
  unfold sign_extension
  refine wf_append_iff.mpr ⟨?_, h⟩
  cases hb : signBitWord c.headI
  · simp only [hb, Bool.false_eq_true, if_false]
    exact wf_replicate W32_pos
  · simp only [hb, if_true]
    exact wf_replicate UMAX_lt

theorem sign_extension_eq_self {c : List Nat} {n : Nat} (h : n ≤ c.length) :
    sign_extension c n = c := by
  unfold sign_extension
  rw [Nat.sub_eq_zero_of_le h]
  simp

theorem sign_extension_headI_sign (c : List Nat) (n : Nat) :
    signBitWord (sign_extension c n).headI = signBitWord c.headI := by
  have hdef : sign_extension c n =
      List.replicate (n - c.length) (if signBitWord c.headI then UMAX else 0) ++ c := rfl
  rw [hdef]
  cases hk : n - c.length with
  | zero => simp
  | succ k =>
    rw [List.replicate_succ]
    cases hb : signBitWord c.headI
    · simp [signBitWord_zero]
    · simp [signBitWord_UMAX]

theorem sign_extension_toNat_of_nonneg {c : List Nat} (hb : signBitWord c.headI = false)
    (n : Nat) : toNat (sign_extension c n) = toNat c := by
  unfold sign_extension
  rw [hb]
  simp only [Bool.false_eq_true, if_false]
  rw [toNat_append, toNat_replicate_zero]
  ring

theorem sign_extension_toNat_of_neg {c : List Nat} (hb : signBitWord c.headI = true)
    (n : Nat) : toNat (sign_extension c n) =
      (W32 ^ (n - c.length) - 1) * W32 ^ c.length + toNat c := by
  unfold sign_extension
  rw [hb]
  simp only [if_true]
  rw [toNat_append, toNat_replicate_UMAX]

theorem sign_extension_value (c : List Nat) (n : Nat) :
    value (sign_extension c n) = value c := by
  unfold value
  rw [sign_extension_headI_sign, sign_extension_length]
  cases hb : signBitWord c.headI
  · rw [sign_extension_toNat_of_nonneg hb]
    simp
  · rw [sign_extension_toNat_of_neg hb]
    simp only [if_true]
    have h1 : 1 ≤ W32 ^ (n - c.length) := pow_pos W32_pos _
    rw [pow_add]
    push_cast [Nat.cast_sub h1]
    ring

/-! ### Truncation -/

/-- A carrier is in canonical form when it has at most one word or its leading
word differs from the extension word implied by the second word's sign bit. -/
def canonical : List Nat → Prop
  | x :: y :: _ => x ≠ (if signBitWord y then UMAX else 0)
  | _ => True

/-- A leading word equal to the extension word implied by the next word's sign
bit is redundant for the signed value. -/
theorem value_cons_redundant {x y : Nat} {rest : List Nat}
    (hx : x = (if signBitWord y then UMAX else 0)) :
    value (x :: y :: rest) = value (y :: rest) := by
  cases hb : signBitWord y
  · rw [hb] at hx
    simp only [Bool.false_eq_true, if_false] at hx
    subst hx
    unfold value
    have ht : toNat (0 :: y :: rest) = toNat (y :: rest) := by
      show 0 * W32 ^ (y :: rest).length + toNat (y :: rest) = _
      ring
    have hh1 : (0 :: y :: rest).headI = 0 := rfl
    have hh2 : (y :: rest).headI = y := rfl
    rw [ht, hh1, hh2, signBitWord_zero, hb]
    simp
  · rw [hb] at hx
    simp only [if_true] at hx
    subst hx
    unfold value
    have hh1 : (UMAX :: y :: rest).headI = UMAX := rfl
    have hh2 : (y :: rest).headI = y := rfl
    rw [hh1, hh2, signBitWord_UMAX, hb]
    simp only [if_true]
    have ht : toNat (UMAX :: y :: rest) =
        UMAX * W32 ^ (y :: rest).length + toNat (y :: rest) := rfl
    have hlen : (UMAX :: y :: rest).length = (y :: rest).length + 1 := rfl
    rw [ht, hlen, pow_succ]
    have hU := UMAX_add_one
    zify at hU
    push_cast
    linear_combination (W32 ^ (y :: rest).length : Int) * hU

theorem truncGo_spec (e : Nat) :
    ∀ c : List Nat, c ≠ [] →
      e = (if signBitWord c.headI then UMAX else 0) →
      truncGo e c ≠ [] ∧ (truncGo e c).length ≤ c.length ∧
        canonical (truncGo e c) ∧ value (truncGo e c) = value c ∧
        ∀ w ∈ truncGo e c, w ∈ c := by
  intro c
  induction c with
  | nil => intro hne _; exact absurd rfl hne
  | cons x tail ih =>
    intro _ he
    cases tail with
    | nil =>
      have hstep : truncGo e [x] = [x] := rfl
      rw [hstep]
      exact ⟨by simp, le_refl _, trivial, rfl, fun w hw => hw⟩
    | cons y rest =>
      have hhead : (x :: y :: rest).headI = x := rfl
      rw [hhead] at he
      by_cases hxe : x = e
      · by_cases hye : (if signBitWord y then UMAX else 0) = e
        · have hstep : truncGo e (x :: y :: rest) = truncGo e (y :: rest) := by
            simp [truncGo, hxe, hye]
          have hinv : e = (if signBitWord (y :: rest).headI then UMAX else 0) := by
            have : (y :: rest).headI = y := rfl
            rw [this, hye]
          obtain ⟨ih1, ih2, ih3, ih4, ih5⟩ := ih (by simp) hinv
          rw [hstep]
          refine ⟨ih1, ?_, ih3, ?_, ?_⟩
          · calc (truncGo e (y :: rest)).length ≤ (y :: rest).length := ih2
            _ ≤ (x :: y :: rest).length := by simp
          · rw [ih4]
            exact (value_cons_redundant (hxe.trans hye.symm)).symm
          · intro w hw
            exact List.mem_cons_of_mem x (ih5 w hw)
        · have hstep : truncGo e (x :: y :: rest) = x :: y :: rest := by
            simp [truncGo, hxe, hye]
          rw [hstep]
          refine ⟨by simp, le_refl _, ?_, rfl, fun w hw => hw⟩
          show x ≠ (if signBitWord y then UMAX else 0)
          intro hcontra
          exact hye (hcontra.symm.trans hxe)
      · have hstep : truncGo e (x :: y :: rest) = x :: y :: rest := by
          simp [truncGo, hxe]
        rw [hstep]
        refine ⟨by simp, le_refl _, ?_, rfl, fun w hw => hw⟩
        show x ≠ (if signBitWord y then UMAX else 0)
        intro hcontra
        apply hxe
        cases hb : signBitWord y
        · rw [hb] at hcontra
          simp only [Bool.false_eq_true, if_false] at hcontra
          rw [he, hcontra, signBitWord_zero]
          simp
        · rw [hb] at hcontra
          simp only [if_true] at hcontra
          rw [he, hcontra, signBitWord_UMAX]
          simp

theorem truncate_spec {c : List Nat} (hc : c ≠ []) :
    truncate c ≠ [] ∧ (truncate c).length ≤ c.length ∧ canonical (truncate c) ∧
      value (truncate c) = value c ∧ ∀ w ∈ truncate c, w ∈ c :=
  truncGo_spec _ c hc rfl

theorem truncate_wf {c : List Nat} (h : wf c) (hc : c ≠ []) : wf (truncate c) :=
  fun w hw => h w ((truncate_spec hc).2.2.2.2 w hw)

/-! ### Minimality of canonical carriers -/

/-- The value of a canonical carrier of at least two words does not fit in one
word fewer: twice the value lies outside `[-W32^m, W32^m)` for `m` the length
without the leading word. -/
theorem canonical_head_large {x y : Nat} {rest : List Nat}
    (h : wf (x :: y :: rest)) (hcan : x ≠ (if signBitWord y then UMAX else 0)) :
    2 * value (x :: y :: rest) < -((W32 ^ (y :: rest).length : Nat) : Int) ∨
      ((W32 ^ (y :: rest).length : Nat) : Int) ≤ 2 * value (x :: y :: rest) := by
  have hx : x < W32 := (wf_cons_iff.mp h).1
  have hwtail : wf (y :: rest) := (wf_cons_iff.mp h).2
  have hN : toNat (y :: rest) < W32 ^ (y :: rest).length := toNat_lt hwtail
  have hNfull : toNat (x :: y :: rest) =
      x * W32 ^ (y :: rest).length + toNat (y :: rest) := rfl
  have hlen : (x :: y :: rest).length = (y :: rest).length + 1 := rfl
  have hv := value_eq_ite h (by simp)
  have hsx := signBit_iff h (by simp)
  have hsy := signBit_iff hwtail (by simp)
  have hhx : (x :: y :: rest).headI = x := rfl
  have hhy : (y :: rest).headI = y := rfl
  rw [hhx] at hsx
  rw [hhy] at hsy
  cases hbx : signBitWord x
  · -- the leading word is non-negative: the value is the unsigned interpretation
    have hnotle : ¬ W32 ^ (x :: y :: rest).length ≤ 2 * toNat (x :: y :: rest) := by
      intro hle
      rw [hsx.mpr hle] at hbx
      simp at hbx
    have hkey : W32 ^ (y :: rest).length ≤ 2 * toNat (x :: y :: rest) := by
      rcases Nat.eq_zero_or_pos x with hx0 | hx1
      · subst hx0
        cases hby : signBitWord y
        · exfalso
          apply hcan
          rw [hby]
          simp
        · have := hsy.mp hby
          omega
      · have hxP : W32 ^ (y :: rest).length ≤ x * W32 ^ (y :: rest).length :=
          Nat.le_mul_of_pos_left _ hx1
        omega
    right
    rw [hv, if_neg hnotle]
    omega
  · -- the leading word is negative: the value has `W32^(m+1)` subtracted
    have hle : W32 ^ (x :: y :: rest).length ≤ 2 * toNat (x :: y :: rest) :=
      hsx.mp hbx
    have hkey : 2 * toNat (x :: y :: rest) + W32 ^ (y :: rest).length <
        2 * W32 ^ (x :: y :: rest).length := by
      have hpow : W32 ^ (x :: y :: rest).length = W32 ^ (y :: rest).length * W32 := by
        rw [hlen, pow_succ]
      rw [hpow]
      by_cases hxu : x = UMAX
      · subst hxu
        cases hby : signBitWord y
        · have h2N : ¬ W32 ^ (y :: rest).length ≤ 2 * toNat (y :: rest) := by
            intro hcon
            rw [hsy.mpr hcon] at hby
            simp at hby
          have h2N2 : 2 * toNat (y :: rest) < W32 ^ (y :: rest).length :=
            Nat.lt_of_not_le h2N
          have hrel : W32 ^ (y :: rest).length * W32 =
              UMAX * W32 ^ (y :: rest).length + W32 ^ (y :: rest).length := by
            rw [← UMAX_add_one]
            ring
          rw [hNfull, hrel]
          clear hv hsx hsy hle h hcan hby h2N hNfull hlen hN hx hwtail
          omega
        · exfalso
          apply hcan
          rw [hby]
          simp
      · have hx2 : x + 2 ≤ W32 := by
          have hU := UMAX_add_one
          omega
        have h1 : 2 * x + 3 ≤ 2 * W32 := by omega
        have h2 : (2 * x + 3) * W32 ^ (y :: rest).length ≤
            (2 * W32) * W32 ^ (y :: rest).length :=
          Nat.mul_le_mul_right _ h1
        have e1 : (2 * x + 3) * W32 ^ (y :: rest).length =
            2 * (x * W32 ^ (y :: rest).length) + 3 * W32 ^ (y :: rest).length := by
          ring
        have e2 : (2 * W32) * W32 ^ (y :: rest).length =
            2 * (W32 ^ (y :: rest).length * W32) := by
          ring
        omega
    left
    rw [hv, if_pos hle]
    omega

/-- A canonical carrier is no longer than any well-formed carrier with the
same signed value. -/
theorem canonical_min {r d : List Nat} (hr : wf r) (hcan : canonical r)
    (hd : wf d) (hdne : d ≠ []) (hv : value d = value r) :
    r.length ≤ d.length := by
  by_contra hlt
  push_neg at hlt
  have hdlen : 1 ≤ d.length := List.length_pos.mpr hdne
  rcases r with _ | ⟨x, tail⟩
  · rw [List.length_nil] at hlt
    omega
  rcases tail with _ | ⟨y, rest⟩
  · rw [List.length_cons, List.length_nil] at hlt
    omega
  have hm : d.length ≤ (y :: rest).length := by
    have hl : (x :: y :: rest).length = (y :: rest).length + 1 := rfl
    omega
  have hmono : (W32 ^ d.length : Nat) ≤ W32 ^ (y :: rest).length :=
    Nat.pow_le_pow_right W32_pos hm
  have hrange := value_range hd hdne
  rw [hv] at hrange
  have hcan2 : x ≠ (if signBitWord y then UMAX else 0) := hcan
  have hbig := canonical_head_large hr hcan2
  rcases hbig with hbig | hbig
  · have h1 := hrange.1
    omega
  · have h2 := hrange.2
    omega

/-! ### Correctness of addition -/

theorem value_cons_zero (l : List Nat) : value (0 :: l) = (toNat l : Int) := by
  unfold value
  have hh : (0 :: l).headI = 0 := rfl
  rw [hh, signBitWord_zero]
  have ht : toNat (0 :: l) = toNat l := by
    show 0 * W32 ^ l.length + toNat l = toNat l
    ring
  rw [ht]
  simp

theorem value_cons_UMAX (l : List Nat) :
    value (UMAX :: l) = (toNat l : Int) - ((W32 ^ l.length : Nat) : Int) := by
  unfold value
  have hh : (UMAX :: l).headI = UMAX := rfl
  rw [hh, signBitWord_UMAX]
  have ht : toNat (UMAX :: l) = UMAX * W32 ^ l.length + toNat l := rfl
  have hlen2 : (UMAX :: l).length = l.length + 1 := rfl
  rw [ht, hlen2, pow_succ, if_pos rfl]
  have hU := UMAX_add_one
  zify at hU
  push_cast
  linear_combination (W32 ^ l.length : Int) * hU

/-- Arithmetic core of the overflow-fix case analysis in `impl Add`: given the
word-sum equation and the three sign bits with their characterizations, the
signed value of the fixed-up result equals the sum of the operand values. -/
theorem add_value_core {NA NB R cy W : Nat} (hW : 0 < W)
    (hNA : NA < W) (hNB : NB < W) (hR : R < W) (hcy : cy ≤ 1)
    (heq : R + cy * W = NA + NB) (sA sB sR : Bool)
    (hA : sA = true ↔ W ≤ 2 * NA) (hB : sB = true ↔ W ≤ 2 * NB)
    (hRs : sR = true ↔ W ≤ 2 * R) :
    (if sB == sA && (sR != sB) then
        (if sB then ((R : Int) - (W : Nat)) else (R : Int))
      else ((R : Int) - (if sR then ((W : Nat) : Int) else 0))) =
      ((NA : Int) - (if sA then ((W : Nat) : Int) else 0)) +
        ((NB : Int) - (if sB then ((W : Nat) : Int) else 0)) := by
  rcases Nat.le_one_iff_eq_zero_or_eq_one.mp hcy with h0 | h1
  · subst h0
    rw [Nat.zero_mul] at heq
    cases sA <;> cases sB <;> cases sR <;> simp at hA hB hRs ⊢ <;> omega
  · subst h1
    rw [Nat.one_mul] at heq
    cases sA <;> cases sB <;> cases sR <;> simp at hA hB hRs ⊢ <;> omega

theorem add_spec {a b : List Nat} (ha : wf a) (hb : wf b)
    (hna : a ≠ []) (hnb : b ≠ []) :
    value (add a b) = value a + value b ∧ wf (add a b) ∧ add a b ≠ [] := by
  have haL : a.length ≤ max a.length b.length := le_max_left _ _
  have hbL : b.length ≤ max a.length b.length := le_max_right _ _
  set L := max a.length b.length with hLdef
  set A := sign_extension a L with hAdef
  set B := sign_extension b L with hBdef
  have hAlen : A.length = L := by rw [hAdef, sign_extension_length]; omega
  have hBlen : B.length = L := by rw [hBdef, sign_extension_length]; omega
  have hAwf : wf A := sign_extension_wf ha L
  have hBwf : wf B := sign_extension_wf hb L
  have hAne : A ≠ [] := sign_extension_ne_nil hna L
  have hBne : B ≠ [] := sign_extension_ne_nil hnb L
  obtain ⟨hp1, hp2, hp3, hp4⟩ := addGo_spec A B (by rw [hAlen, hBlen]) hAwf hBwf
  set p := addGo A B with hpdef
  have hp1L : p.1.length = L := by rw [hp1, hAlen]
  have hLpos : 0 < L := by
    have h0 : 0 < a.length := List.length_pos.mpr hna
    omega
  have hpne : p.1 ≠ [] := by
    intro hcon
    rw [hcon] at hp1L
    simp at hp1L
    omega
  set sA := signBitWord a.headI with hsAdef
  set sB := signBitWord B.headI with hsBdef
  set sR := signBitWord p.1.headI with hsRdef
  set ret2 := (if sB == sA && (sR != sB) then
      (if sB then UMAX :: p.1 else 0 :: p.1) else p.1) with hret2def
  have hadd : add a b = truncate ret2 := rfl
  have hret2ne : ret2 ≠ [] := by
    rw [hret2def]
    split
    · split <;> simp
    · exact hpne
  have hret2wf : wf ret2 := by
    rw [hret2def]
    split
    · split
      · exact wf_cons_iff.mpr ⟨UMAX_lt, hp2⟩
      · exact wf_cons_iff.mpr ⟨W32_pos, hp2⟩
    · exact hp2
  obtain ⟨htne, _hlen, _hcan, htval, htmem⟩ := truncate_spec hret2ne
  have hres_wf : wf (add a b) := by
    rw [hadd]
    exact fun w hw => hret2wf w (htmem w hw)
  have hres_ne : add a b ≠ [] := by
    rw [hadd]
    exact htne
  refine ⟨?_, hres_wf, hres_ne⟩
  rw [hadd, htval]
  have hAv : value A = value a := sign_extension_value a L
  have hBv : value B = value b := sign_extension_value b L
  rw [← hAv, ← hBv]
  have hNA := toNat_lt hAwf
  have hNB := toNat_lt hBwf
  have hR := toNat_lt hp2
  rw [hAlen] at hNA
  rw [hBlen] at hNB
  rw [hp1L] at hR
  rw [hAlen] at hp4
  have hiffA : sA = true ↔ W32 ^ L ≤ 2 * toNat A := by
    rw [hsAdef, ← sign_extension_headI_sign a L, ← hAdef, ← hAlen]
    exact signBit_iff hAwf hAne
  have hiffB : sB = true ↔ W32 ^ L ≤ 2 * toNat B := by
    rw [hsBdef, ← hBlen]
    exact signBit_iff hBwf hBne
  have hiffR : sR = true ↔ W32 ^ L ≤ 2 * toNat p.1 := by
    rw [hsRdef, ← hp1L]
    exact signBit_iff hp2 hpne
  have hvA : value A = (toNat A : Int) - (if sA then ((W32 ^ L : Nat) : Int) else 0) := by
    unfold value
    rw [hAlen]
    have hhA : signBitWord A.headI = sA := by
      rw [hsAdef, hAdef]
      exact sign_extension_headI_sign a L
    rw [hhA]
  have hvB : value B = (toNat B : Int) - (if sB then ((W32 ^ L : Nat) : Int) else 0) := by
    unfold value
    rw [hBlen]
  have hvR : value p.1 = (toNat p.1 : Int) - (if sR then ((W32 ^ L : Nat) : Int) else 0) := by
    unfold value
    rw [hp1L]
  have hcore := add_value_core (pow_pos W32_pos L) hNA hNB hR hp3 hp4 sA sB sR
    hiffA hiffB hiffR
  rw [hvA, hvB] at *
  rw [hret2def]
  cases hcond : (sB == sA && (sR != sB))
  · rw [hcond] at hcore
    simp only [Bool.false_eq_true, if_false] at hcore ⊢
    rw [hvR]
    exact hcore
  · rw [hcond] at hcore
    simp only [if_true] at hcore ⊢
    cases hsb : sB
    · rw [hsb] at hcore
      simp only [Bool.false_eq_true, if_false] at hcore ⊢
      rw [value_cons_zero]
      exact hcore
    · rw [hsb] at hcore
      simp only [if_true] at hcore ⊢
      rw [value_cons_UMAX, hp1L]
      exact hcore

/-! ### Derived facts about `two_complement` -/

theorem two_complement_wf {c : List Nat} (h : wf c) : wf (two_complement c) :=
  (twoCompGo_spec c h).2.1

theorem two_complement_toNat {c : List Nat} (h : wf c) :
    toNat (two_complement c) = (W32 ^ c.length - toNat c) % W32 ^ c.length := by
  obtain ⟨h1, h2, h3, h4⟩ := twoCompGo_spec c h
  have hT : toNat (twoCompGo c).1 < W32 ^ c.length := by
    have hlt := toNat_lt h2
    rw [h1] at hlt
    exact hlt
  have hN : toNat c < W32 ^ c.length := toNat_lt h
  unfold two_complement
  rcases Nat.le_one_iff_eq_zero_or_eq_one.mp h3 with hcy | hcy <;> rw [hcy] at h4
  · rw [Nat.zero_mul, Nat.add_zero] at h4
    rcases Nat.eq_zero_or_pos (toNat c) with h0 | hpos
    · exfalso
      rw [h0] at h4
      omega
    · have hmod : (W32 ^ c.length - toNat c) % W32 ^ c.length =
          W32 ^ c.length - toNat c := Nat.mod_eq_of_lt (by omega)
      rw [hmod]
      omega
  · rw [Nat.one_mul] at h4
    have hN0 : toNat c = 0 := by omega
    rw [hN0, Nat.sub_zero, Nat.mod_self]
    omega

/-! ### Truncation after sign extension -/

theorem truncGo_replicate (e : Nat) (he : (if signBitWord e then UMAX else 0) = e)
    {c : List Nat} (hc : c ≠ [])
    (hinv : (if signBitWord c.headI then UMAX else 0) = e) :
    ∀ k, truncGo e (List.replicate k e ++ c) = truncGo e c := by
  intro k
  induction k with
  | zero => simp
  | succ j ih =>
    rw [List.replicate_succ, List.cons_append]
    rcases List.exists_cons_of_ne_nil
        (show List.replicate j e ++ c ≠ [] by simp [hc]) with ⟨z, rest2, hzr⟩
    rw [hzr]
    have hexp : (if signBitWord z then UMAX else 0) = e := by
      cases j with
      | zero =>
        simp only [List.replicate_zero, List.nil_append] at hzr
        have hz : c.headI = z := by rw [hzr]; rfl
        rw [← hz]
        exact hinv
      | succ i =>
        rw [List.replicate_succ, List.cons_append] at hzr
        injection hzr with h1 h2
        rw [← h1]
        exact he
    have hstep : truncGo e (e :: z :: rest2) = truncGo e (z :: rest2) := by
      simp [truncGo, hexp]
    rw [hstep, ← hzr, ih]

theorem truncate_sign_extension (c : List Nat) (hc : c ≠ []) (n : Nat) :
    truncate (sign_extension c n) = truncate c := by
  have hdef : sign_extension c n =
      List.replicate (n - c.length) (if signBitWord c.headI then UMAX else 0) ++ c := rfl
  set e := (if signBitWord c.headI then UMAX else 0) with hedef
  have he : (if signBitWord e then UMAX else 0) = e := by
    rw [hedef]
    cases hb : signBitWord c.headI
    · simp [signBitWord_zero]
    · simp [signBitWord_UMAX]
  cases hk : n - c.length with
  | zero =>
    rw [hk] at hdef
    simp only [List.replicate_zero, List.nil_append] at hdef
    rw [hdef]
  | succ j =>
    unfold truncate
    rw [hdef, hk]
    have hhead : (List.replicate (j + 1) e ++ c).headI = e := by
      rw [List.replicate_succ, List.cons_append]
      rfl
    rw [hhead, he]
    exact truncGo_replicate e he hc rfl (j + 1)

/-! ### The minimum negative value is a fixed point of `two_complement` -/

theorem twoCompGo_replicate_zero (k : Nat) :
    twoCompGo (List.replicate k 0) = (List.replicate k 0, 1) := by
  induction k with
  | zero => rfl
  | succ j ih =>
    rw [List.replicate_succ]
    have h1 : twoCompGo (0 :: List.replicate j 0) =
        ((UMAX - 0 + (twoCompGo (List.replicate j 0)).2) % W32 ::
            (twoCompGo (List.replicate j 0)).1,
          (UMAX - 0 + (twoCompGo (List.replicate j 0)).2) / W32) := rfl
    rw [h1, ih, Nat.sub_zero, UMAX_add_one, Nat.mod_self, Nat.div_self W32_pos]

theorem two_complement_min_word (k : Nat) :
    two_complement (2147483648 :: List.replicate k 0) =
      2147483648 :: List.replicate k 0 := by
  unfold two_complement
  have h1 : twoCompGo (2147483648 :: List.replicate k 0) =
      ((UMAX - 2147483648 + (twoCompGo (List.replicate k 0)).2) % W32 ::
          (twoCompGo (List.replicate k 0)).1,
        (UMAX - 2147483648 + (twoCompGo (List.replicate k 0)).2) / W32) := rfl
  rw [h1, twoCompGo_replicate_zero]
  norm_num [UMAX, W32]

/-! ### Non-emptiness without the well-formedness hypothesis -/

theorem addGo_length (a : List Nat) : ∀ b : List Nat, a.length = b.length →
    (addGo a b).1.length = a.length := by
  induction a with
  | nil =>
    intro b h
    cases b with
    | nil => rfl
    | cons y ys => simp at h
  | cons x xs ih =>
    intro b h
    cases b with
    | nil => simp at h
    | cons y ys =>
      have heq : (addGo (x :: xs) (y :: ys)).1 =
          (x + y + (addGo xs ys).2) % W32 :: (addGo xs ys).1 := rfl
      rw [heq]
      simp [ih ys (by simpa using h)]

theorem add_ne_nil {a b : List Nat} (hna : a ≠ []) (hnb : b ≠ []) : add a b ≠ [] := by
  set L := max a.length b.length with hLdef
  set A := sign_extension a L with hAdef
  set B := sign_extension b L with hBdef
  have hAlen : A.length = L := by
    rw [hAdef, sign_extension_length]
    have := le_max_left a.length b.length
    omega
  have hBlen : B.length = L := by
    rw [hBdef, sign_extension_length]
    have := le_max_right a.length b.length
    omega
  have hp1L : (addGo A B).1.length = L := by
    rw [addGo_length A B (by rw [hAlen, hBlen]), hAlen]
  have hLpos : 0 < L := by
    have h0 : 0 < a.length := List.length_pos.mpr hna
    have := le_max_left a.length b.length
    omega
  have hpne : (addGo A B).1 ≠ [] := by
    intro hcon
    rw [hcon] at hp1L
    simp at hp1L
    omega
  set p := addGo A B with hpdef
  set sA := signBitWord a.headI with hsAdef
  set sB := signBitWord B.headI with hsBdef
  set sR := signBitWord p.1.headI with hsRdef
  set ret2 := (if sB == sA && (sR != sB) then
      (if sB then UMAX :: p.1 else 0 :: p.1) else p.1) with hret2def
  have hadd : add a b = truncate ret2 := rfl
  have hret2ne : ret2 ≠ [] := by
    rw [hret2def]
    split
    · split <;> simp
    · exact hpne
  rw [hadd]
  exact (truncate_spec hret2ne).1

theorem sub_ne_nil {a b : List Nat} (hna : a ≠ []) (hnb : b ≠ []) : sub a b ≠ [] := by
  unfold sub
  apply add_ne_nil hna
  intro hcon
  have hl := two_complement_length b
  rw [hcon] at hl
  simp at hl
  exact hnb (List.length_eq_zero.mp hl.symm)

/-! ### Display -/

theorem hex8_length (w : Nat) : (hex8 w).length = 8 := by
  show ((List.range 8).map fun i => hexDigit (w / 16 ^ (7 - i) % 16)).length = 8
  rw [List.length_map, List.length_range]

theorem display_eq_join (c : List Nat) : display c = String.join (c.map hex8) := by
  unfold display String.join
  rw [List.foldl_map]

theorem display_foldl_length (c : List Nat) :
    ∀ acc : String, (c.foldl (fun acc w => acc ++ hex8 w) acc).length =
      acc.length + 8 * c.length := by
  induction c with
  | nil => intro acc; simp
  | cons w ws ih =>
    intro acc
    rw [List.foldl_cons, ih, String.length_append, hex8_length, List.length_cons]
    ring

theorem display_length (c : List Nat) : (display c).length = 8 * c.length := by
  unfold display
  rw [display_foldl_length]
  simp

theorem hex8_chars (w : Nat) : ∀ ch ∈ (hex8 w).data, ch ∈ "0123456789abcdef".data := by
  intro ch hch
  have hdata : (hex8 w).data =
      (List.range 8).map fun i => hexDigit (w / 16 ^ (7 - i) % 16) := rfl
  rw [hdata] at hch
  rcases List.mem_map.mp hch with ⟨i, _, hdi⟩
  rw [← hdi]
  have h16 : w / 16 ^ (7 - i) % 16 < 16 := Nat.mod_lt _ (by norm_num)
  set d := w / 16 ^ (7 - i) % 16 with hd
  interval_cases d <;> decide

theorem display_chars (c : List Nat) :
    ∀ ch ∈ (display c).data, ch ∈ "0123456789abcdef".data := by
  unfold display
  have hgen : ∀ acc : String, (∀ ch ∈ acc.data, ch ∈ "0123456789abcdef".data) →
      ∀ ch ∈ (c.foldl (fun acc w => acc ++ hex8 w) acc).data,
        ch ∈ "0123456789abcdef".data := by
    induction c with
    | nil => intro acc hacc; exact hacc
    | cons w ws ih =>
      intro acc hacc
      rw [List.foldl_cons]
      apply ih
      intro ch hch
      rw [String.data_append] at hch
      rcases List.mem_append.mp hch with hch | hch
      · exact hacc ch hch
      · exact hex8_chars w ch hch
  exact hgen "" (by intro ch hch; cases hch)

/-! ## Claim theorems -/

/-- **C1**: for all non-empty well-formed carriers, `add` returns a carrier
whose two's-complement value equals `value a + value b`; in particular adding
`fromWords [0x7FFFFFFF]` to `fromSmall 1` gives carrier
`[0x00000000, 0x80000000]`. -/
theorem claim_C1_add_value :
    (∀ a b : List Nat, wf a → wf b → a ≠ [] → b ≠ [] →
        value (add a b) = value a + value b) ∧
      (new_large [0x7FFFFFFF]).map (fun x => add x (new 1)) =
        some [0x00000000, 0x80000000] := by
  constructor
  · intro a b ha hb hna hnb
    exact (add_spec ha hb hna hnb).1
  · decide

/-- Witness for C1 at the concrete input `5 + 3`. -/
theorem claim_C1_add_value_witness :
    value (add [5] [3]) = value [5] + value [3] :=
  claim_C1_add_value.1 [5] [3] (by decide) (by decide) (by decide) (by decide)

/-- **C2** (evaluation at the failing input): subtracting the one-word minimum
negative value `[0x80000000]` from itself yields carrier
`[0xFFFFFFFF, 0x00000000]`, whose value is `-2^32`, not the canonical zero
carrier `[0]` that the claim requires. -/
theorem claim_C2_sub_self_min_negative :
    sub [0x80000000] [0x80000000] = [0xFFFFFFFF, 0x00000000] ∧
      value [0xFFFFFFFF, 0x00000000] = -(2 ^ 32) ∧
      sub [0x80000000] [0x80000000] ≠ [0] :=
  ⟨by decide, by decide, by decide⟩

/-- **C3**: `truncate` returns a non-empty carrier with the same signed value,
shortest among all well-formed non-empty carriers representing that value. -/
theorem claim_C3_truncate_shortest :
    ∀ c : List Nat, wf c → c ≠ [] →
      truncate c ≠ [] ∧ value (truncate c) = value c ∧
        ∀ d : List Nat, wf d → d ≠ [] → value d = value c →
          (truncate c).length ≤ d.length := by
  intro c h hc
  obtain ⟨hne, _hlen, hcan, hval, _hmem⟩ := truncate_spec hc
  refine ⟨hne, hval, ?_⟩
  intro d hd hdne hdv
  exact canonical_min (truncate_wf h hc) hcan hd hdne (hdv.trans hval.symm)

/-- Witness for C3 at the concrete input `[0, 5]`. -/
theorem claim_C3_truncate_shortest_witness :
    truncate [0, 5] ≠ [] ∧ value (truncate [0, 5]) = value [0, 5] ∧
      (truncate [0, 5]).length ≤ [5].length := by
  obtain ⟨h1, h2, h3⟩ := claim_C3_truncate_shortest [0, 5] (by decide) (by decide)
  exact ⟨h1, h2, h3 [5] (by decide) (by decide) (by decide)⟩

/-- **C4**: truncation after sign extension to any `n ≥ len` reproduces the
truncation of the original carrier. -/
theorem claim_C4_roundtrip :
    ∀ c : List Nat, c ≠ [] → ∀ n : Nat, c.length ≤ n →
      truncate (sign_extension c n) = truncate c := by
  intro c hc n _
  exact truncate_sign_extension c hc n

/-- Witness for C4 at the concrete input `[5]`, `n = 3`. -/
theorem claim_C4_roundtrip_witness :
    truncate (sign_extension [5] 3) = truncate [5] :=
  claim_C4_roundtrip [5] (by decide) 3 (by decide)

/-- **C5**: `two_complement` keeps exactly the input word count (no automatic
growth, the carry out of the most-significant word is discarded), preserves
well-formedness, and its unsigned interpretation is the negation of the input
modulo `2^(32*len)`. -/
theorem claim_C5_two_complement :
    ∀ c : List Nat, wf c → c ≠ [] →
      (two_complement c).length = c.length ∧ wf (two_complement c) ∧
        toNat (two_complement c) = (W32 ^ c.length - toNat c) % W32 ^ c.length := by
  intro c h _
  exact ⟨two_complement_length c, two_complement_wf h, two_complement_toNat h⟩

/-- Witness for C5 at the concrete input `[5]`. -/
theorem claim_C5_two_complement_witness :
    (two_complement [5]).length = 1 ∧ wf (two_complement [5]) ∧
      toNat (two_complement [5]) = (W32 ^ 1 - toNat [5]) % W32 ^ 1 := by
  obtain ⟨h1, h2, h3⟩ := claim_C5_two_complement [5] (by decide) (by decide)
  exact ⟨h1, h2, h3⟩

/-- **C6**: sign extension returns `max n len` words, leaves the carrier
unchanged when `n ≤ len` (it never truncates), and preserves the signed
value. -/
theorem claim_C6_sign_extension :
    ∀ (c : List Nat) (n : Nat), wf c → c ≠ [] →
      (sign_extension c n).length = max n c.length ∧
        (n ≤ c.length → sign_extension c n = c) ∧
        value (sign_extension c n) = value c := by
  intro c n _ _
  refine ⟨?_, fun h => sign_extension_eq_self h, sign_extension_value c n⟩
  rw [sign_extension_length]
  omega

/-- Witness for C6 at the concrete inputs `[5]`, `n = 3` and `n = 0`. -/
theorem claim_C6_sign_extension_witness :
    (sign_extension [5] 3).length = max 3 1 ∧
      value (sign_extension [5] 3) = value [5] ∧
      sign_extension [5] 0 = [5] := by
  obtain ⟨h1, _h2, h3⟩ := claim_C6_sign_extension [5] 3 (by decide) (by decide)
  exact ⟨h1, h3, (claim_C6_sign_extension [5] 0 (by decide) (by decide)).2.1 (by decide)⟩

/-- **C7**: `new_large` fails (modelled as `none`) exactly on the empty
carrier; on a non-empty carrier it returns the truncation, which preserves
the signed value. -/
theorem claim_C7_new_large :
    (∀ c : List Nat, new_large c = none ↔ c = []) ∧
      ∀ c : List Nat, wf c → c ≠ [] →
        new_large c = some (truncate c) ∧ value (truncate c) = value c := by
  constructor
  · intro c
    unfold new_large
    constructor
    · intro h
      by_contra hc
      rw [if_neg hc] at h
      exact Option.some_ne_none _ h
    · intro h
      rw [if_pos h]
  · intro c _ hc
    refine ⟨?_, (truncate_spec hc).2.2.2.1⟩
    unfold new_large
    rw [if_neg hc]

/-- Witness for C7 at the concrete inputs `[]` and `[3]`. -/
theorem claim_C7_new_large_witness :
    new_large [] = none ∧ new_large [3] = some (truncate [3]) ∧
      value (truncate [3]) = value [3] := by
  obtain ⟨h1, h2⟩ := claim_C7_new_large
  obtain ⟨h3, h4⟩ := h2 [3] (by decide) (by decide)
  exact ⟨(h1 []).mpr rfl, h3, h4⟩

/-- **C8**: every operation maps non-empty carriers to non-empty carriers. -/
theorem claim_C8_nonempty :
    (∀ n : Nat, new n ≠ []) ∧
    (∀ c : List Nat, c ≠ [] → ∀ r : List Nat, new_large c = some r → r ≠ []) ∧
    (∀ (c : List Nat) (n : Nat), c ≠ [] → sign_extension c n ≠ []) ∧
    (∀ c : List Nat, c ≠ [] → two_complement c ≠ []) ∧
    (∀ c : List Nat, c ≠ [] → truncate c ≠ []) ∧
    (∀ a b : List Nat, a ≠ [] → b ≠ [] → add a b ≠ []) ∧
    (∀ a b : List Nat, a ≠ [] → b ≠ [] → sub a b ≠ []) := by
  refine ⟨?_, ?_, ?_, ?_, ?_, ?_, ?_⟩
  · intro n
    simp [new]
  · intro c hc r hr
    have hred : new_large c = some (truncate c) := by
      unfold new_large
      rw [if_neg hc]
    rw [hred] at hr
    injection hr with h
    rw [← h]
    exact (truncate_spec hc).1
  · intro c n hc
    exact sign_extension_ne_nil hc n
  · intro c hc hcon
    have hl := two_complement_length c
    rw [hcon] at hl
    simp at hl
    exact hc (List.length_eq_zero.mp hl.symm)
  · intro c hc
    exact (truncate_spec hc).1
  · intro a b hna hnb
    exact add_ne_nil hna hnb
  · intro a b hna hnb
    exact sub_ne_nil hna hnb

/-- Witness for C8 at concrete inputs. -/
theorem claim_C8_nonempty_witness :
    new 0 ≠ [] ∧ truncate [5] ≠ [] ∧ sign_extension [5] 2 ≠ [] ∧
      two_complement [5] ≠ [] ∧ add [5] [3] ≠ [] ∧ sub [5] [3] ≠ [] :=
  ⟨claim_C8_nonempty.1 0,
    claim_C8_nonempty.2.2.2.2.1 [5] (by decide),
    claim_C8_nonempty.2.2.1 [5] 2 (by decide),
    claim_C8_nonempty.2.2.2.1 [5] (by decide),
    claim_C8_nonempty.2.2.2.2.2.1 [5] [3] (by decide) (by decide),
    claim_C8_nonempty.2.2.2.2.2.2 [5] [3] (by decide) (by decide)⟩

/-- **C9**: the rendering is the concatenation, most-significant word first
with no separators, of each word as exactly 8 lowercase hexadecimal digits;
with the two concrete renderings named in the specification. -/
theorem claim_C9_display :
    (∀ c : List Nat, display c = String.join (c.map hex8)) ∧
    (∀ c : List Nat, (display c).length = 8 * c.length) ∧
    (∀ c : List Nat, ∀ ch ∈ (display c).data, ch ∈ "0123456789abcdef".data) ∧
    value [0xFFFFFFFA, 0xFFFFFFF8] = -(5 * 2 ^ 32 + 8) ∧
    (new_large [0xFFFFFFFA, 0xFFFFFFF8]).map display = some "fffffffafffffff8" ∧
    display (add (new 5) (new 3)) = "00000008" :=
  ⟨display_eq_join, display_length, display_chars, by decide, by decide, by decide⟩

/-- Witness for C9 at the concrete input `[5]`. -/
theorem claim_C9_display_witness :
    '0' ∈ "0123456789abcdef".data :=
  claim_C9_display.2.2.1 [5] '0' (by decide)

/-- **C10**: the minimum negative value at its own width, carrier
`0x80000000 :: 0^k`, is a fixed point of `two_complement`; consequently
`sub a b = add a b` for every such `b` and every `a`. -/
theorem claim_C10_min_fixed_point :
    ∀ k : Nat, two_complement (0x80000000 :: List.replicate k 0) =
        0x80000000 :: List.replicate k 0 ∧
      ∀ a : List Nat, sub a (0x80000000 :: List.replicate k 0) =
        add a (0x80000000 :: List.replicate k 0) := by
  intro k
  refine ⟨two_complement_min_word k, ?_⟩
  intro a
  unfold sub
  rw [two_complement_min_word k]

end BigIntSpec
